import Mathlib

/-!
Shallow embedding of the styled-text layout engine in `src/app/page.tsx`
(an advanced text editor with canvas preview/export).  Pixel widths and
heights, which are JavaScript numbers in the source, are modelled as
rationals.  Each definition mirrors one function or code block of the
source; theorems at the end of the file settle the specification claims.
-/

namespace TextImage

/-- The four alignment values of the `textAlign` union type. -/
inductive Align where
  | left
  | center
  | right
  | justify
deriving Repr, DecidableEq

/-- Mirrors the `TextStyle` interface.  `textAlign` is an optional field
in the source, hence an `Option` here. -/
structure TextStyle where
  fontSize : ℚ
  fontFamily : String
  textColor : String
  isBold : Bool
  isItalic : Bool
  isUnderline : Bool
  letterSpacing : ℚ
  wordSpacing : ℚ
  textAlign : Option Align
deriving Repr, DecidableEq

/-- Mirrors the `StyledRange` interface.  The source field `end` is a
reserved word in Lean, so it is called `stop` here. -/
structure StyledRange where
  id : String
  start : ℕ
  stop : ℕ
  style : TextStyle
  text : String
deriving Repr, DecidableEq

/-- Mirrors `getStyleForPosition`: `styledRanges.find(range => position >=
range.start && position < range.end)`, defaulting to the document style. -/
def getStyleForPosition (styledRanges : List StyledRange) (defaultStyle : TextStyle)
    (position : ℕ) : TextStyle :=
  match styledRanges.find? (fun range => decide (range.start ≤ position) && decide (position < range.stop)) with
  | some range => range.style
  | none => defaultStyle

/-- JavaScript `text.slice(s, e)` for non-negative indices: the characters
from index `s` (inclusive) to `e` (exclusive); empty when `e ≤ s`. -/
def sliceText (text : String) (s e : ℕ) : String :=
  String.mk (((text.toList).drop s).take (e - s))

/-- Mirrors `applyStyleToSelection`.  The selection is `none` when no text
is selected; `pending` is the captured current global style
(`getDefaultStyle()` in the source); `newId` stands for the generated id.
The guard is exactly `!selectedRange || selectedRange.start ===
selectedRange.end`; overlapping ranges are removed by the filter
`range.end <= selectedRange.start || range.start >= selectedRange.end`. -/
def applyStyleToSelection (sel : Option (ℕ × ℕ)) (text : String)
    (pending : TextStyle) (newId : String)
    (styledRanges : List StyledRange) : List StyledRange :=
  match sel with
  | none => styledRanges
  | some (s, e) =>
    if s = e then styledRanges
    else
      let newRange : StyledRange :=
        { id := newId, start := s, stop := e, style := pending, text := sliceText text s e }
      (styledRanges.filter (fun range => decide (range.stop ≤ s) || decide (e ≤ range.start))) ++ [newRange]

/-- Mirrors the `LineSegment` interface: one measured character. -/
structure LineSegment where
  char : Char
  style : TextStyle
  width : ℚ
deriving Repr, DecidableEq

/-- Mirrors the `LineData` interface. -/
structure LineData where
  segments : List LineSegment
  metricsWidth : ℚ
  maxHeight : ℚ
  spaces : ℕ
  effectiveAlignment : Align
deriving Repr, DecidableEq

/-- Mirrors `getStyledSegments`: one segment per character, measured under
the style resolved for its position.  The metrics provider
(`measureTextWidth` over a canvas context) is abstracted as `measure`. -/
def getStyledSegments (chars : List Char) (styledRanges : List StyledRange)
    (defaultStyle : TextStyle) (measure : Char → TextStyle → ℚ) : List LineSegment :=
  chars.enum.map (fun p =>
    let style := getStyleForPosition styledRanges defaultStyle p.1
    { char := p.2, style := style, width := measure p.2 style })

/-- The mutable accumulator of `wrapStyledSegments`: the pushed lines plus
the `currentLine*` locals. -/
structure WrapState where
  lines : List LineData
  currentLineSegments : List LineSegment
  currentLineMetricsWidth : ℚ
  currentLineMaxHeight : ℚ
  currentLineSpaces : ℕ
  currentLineEffectiveAlignment : Align
deriving Repr, DecidableEq

/-- `reduce((sum, s) => sum + s.width, 0)`. -/
def sumW (segs : List LineSegment) : ℚ :=
  (segs.map (fun s => s.width)).sum

/-- `reduce((max, s) => Math.max(max, s.style.fontSize * lineHeight), 0)`. -/
def maxHeightW (lh : ℚ) (segs : List LineSegment) : ℚ :=
  (segs.map (fun s => s.style.fontSize * lh)).foldl max 0

/-- `filter(s => s.char === " ").length`. -/
def countSp (segs : List LineSegment) : ℕ :=
  segs.countP (fun s => decide (s.char = ' '))

/-- Index of the last space character in the accumulated segments: the
source scans backward from the end for the first `" "`; this recursion
computes the same index (`none` when there is no space). -/
def lastSpaceIdx : List LineSegment → Option ℕ
  | [] => none
  | s :: rest =>
    match lastSpaceIdx rest with
    | some k => some (k + 1)
    | none => if s.char = ' ' then some 0 else none

/-- Mirrors the inner `processLine` closure: push the current line if it is
non-empty and reset every accumulator field (alignment back to the global
`textAlign`). -/
def processLine (ta : Align) (st : WrapState) : WrapState :=
  { lines :=
      if st.currentLineSegments.length > 0 then
        st.lines ++ [{ segments := st.currentLineSegments,
                       metricsWidth := st.currentLineMetricsWidth,
                       maxHeight := st.currentLineMaxHeight,
                       spaces := st.currentLineSpaces,
                       effectiveAlignment := st.currentLineEffectiveAlignment }]
      else st.lines
    currentLineSegments := []
    currentLineMetricsWidth := 0
    currentLineMaxHeight := 0
    currentLineSpaces := 0
    currentLineEffectiveAlignment := ta }

/-- Mirrors the alignment update at the top of the `forEach` body:
`if (style.textAlign && currentLineEffectiveAlignment === textAlign)
currentLineEffectiveAlignment = style.textAlign`. -/
def alignUpdate (ta : Align) (st : WrapState) (seg : LineSegment) : WrapState :=
  match seg.style.textAlign with
  | some a =>
    if st.currentLineEffectiveAlignment = ta then
      { st with currentLineEffectiveAlignment := a }
    else st
  | none => st

/-- Mirrors the overflow branch: break at the last space if one exists
(keeping the space, moving the later segments to seed the next line and
re-deriving that line's alignment from its first segment), else finalize
the whole current line. -/
def breakCurrent (lh : ℚ) (ta : Align) (st : WrapState) : WrapState :=
  match lastSpaceIdx st.currentLineSegments with
  | some k =>
    let kept := st.currentLineSegments.take (k + 1)
    let moved := st.currentLineSegments.drop (k + 1)
    let st1 : WrapState :=
      { st with
        currentLineSegments := kept
        currentLineMetricsWidth := sumW kept
        currentLineMaxHeight := maxHeightW lh kept
        currentLineSpaces := countSp kept }
    let st2 := processLine ta st1
    { st2 with
      currentLineSegments := moved
      currentLineMetricsWidth := sumW moved
      currentLineMaxHeight := maxHeightW lh moved
      currentLineSpaces := countSp moved
      currentLineEffectiveAlignment :=
        match moved.head? with
        | some m =>
          match m.style.textAlign with
          | some a => a
          | none => ta
        | none => ta }
  | none => processLine ta st

/-- Mirrors the unconditional append at the end of the `forEach` body. -/
def appendSeg (lh : ℚ) (st : WrapState) (seg : LineSegment) : WrapState :=
  { st with
    currentLineSegments := st.currentLineSegments ++ [seg]
    currentLineMetricsWidth := st.currentLineMetricsWidth + seg.width
    currentLineMaxHeight := max st.currentLineMaxHeight (seg.style.fontSize * lh)
    currentLineSpaces := st.currentLineSpaces + (if seg.char = ' ' then 1 else 0) }

/-- One iteration of the `segments.forEach` body of `wrapStyledSegments`. -/
def wrapStep (tw lh : ℚ) (ta : Align) (st : WrapState) (seg : LineSegment) : WrapState :=
  let st := alignUpdate ta st seg
  if seg.char = '\n' then processLine ta st
  else
    let st :=
      if tw < st.currentLineMetricsWidth + seg.width ∧ 0 < st.currentLineSegments.length then
        breakCurrent lh ta st
      else st
    appendSeg lh st seg

/-- The initial accumulator: everything empty, alignment the global one. -/
def initWrapState (ta : Align) : WrapState :=
  { lines := []
    currentLineSegments := []
    currentLineMetricsWidth := 0
    currentLineMaxHeight := 0
    currentLineSpaces := 0
    currentLineEffectiveAlignment := ta }

/-- Mirrors `wrapStyledSegments` (tw = targetWidth, lh = the `lineHeight`
multiplier, ta = the global `textAlign`). -/
def wrapStyledSegments (segs : List LineSegment) (tw lh : ℚ) (ta : Align) : List LineData :=
  (processLine ta (segs.foldl (wrapStep tw lh ta) (initWrapState ta))).lines

/-- Per-segment pen advance used by the drawing loops: the segment width,
plus the justify gap after a space in the justify branch (`extra = 0`
elsewhere). -/
def advanceOf (extra : ℚ) (s : LineSegment) : ℚ :=
  s.width + (if s.char = ' ' then extra else 0)

/-- The x positions assigned by a drawing loop starting at pen position
`x`: each segment is drawn at the current pen, which then advances. -/
def xsFrom (x extra : ℚ) : List LineSegment → List (LineSegment × ℚ)
  | [] => []
  | s :: rest => (s, x) :: xsFrom (x + advanceOf extra s) extra rest

/-- Mirrors the per-line horizontal placement of `renderTextOnCanvas`
(initialPadding is 0 on the offscreen canvas): justify distributes
`(targetWidth - metricsWidth) / spaces` after each space when the line has
a space and a non-space segment; otherwise the line starts at the
left/center/right offset and advances by plain widths. -/
def placeLine (line : LineData) (tw : ℚ) : List (LineSegment × ℚ) :=
  if line.effectiveAlignment = Align.justify ∧ 0 < line.spaces ∧
      line.segments.any (fun s => decide (s.char ≠ ' ')) then
    xsFrom 0 ((tw - line.metricsWidth) / (line.spaces : ℚ)) line.segments
  else
    let drawX : ℚ :=
      if line.effectiveAlignment = Align.center then (tw - line.metricsWidth) / 2
      else if line.effectiveAlignment = Align.right then tw - line.metricsWidth
      else 0
    xsFrom drawX 0 line.segments

/-- `currentY` after the drawing loop: each line advances the pen by
`lineData.maxHeight || defaultFontSize * lineHeight` (JavaScript `||`
falls back when `maxHeight` is `0`). -/
def totalDrawnHeight (lines : List LineData) (defaultFontSize lh : ℚ) : ℚ :=
  lines.foldl (fun y l => y + (if l.maxHeight = 0 then defaultFontSize * lh else l.maxHeight)) 0

/-- The shape of the final canvas produced by `renderTextOnCanvas`:
either a blank surface, or a surface of the given size onto which the
rectangle `(srcX, srcY, srcW, srcH)` of the offscreen canvas is copied at
`(dstX, dstY)`.  `bgFilled = none` means the background stays fully
transparent (`clearRect` only). -/
inductive RenderOutput where
  | blank (width height : ℚ) (bgFilled : Option String)
  | content (width height : ℚ) (bgFilled : Option String)
      (srcX srcY srcW srcH dstX dstY : ℚ)
deriving Repr, DecidableEq

/-- Mirrors steps 3-4 of `renderTextOnCanvas` after the bounding-box scan:
the canvas sizing, background fill and `drawImage` crop for Export
(`forExport = true`) and Preview modes.  `minX/minY/maxX/maxY` are the
scanned bounding box of non-transparent pixels, `hasContent` whether any
was found, `currentY` the total drawn height. -/
def finalizeCanvas (forExport : Bool) (hasContent : Bool)
    (minX minY maxX maxY : ℕ) (currentY : ℚ) (tw : ℚ) (backgroundColor : String) :
    RenderOutput :=
  if hasContent = false then
    RenderOutput.blank (if forExport then 4 else tw + 20) (if forExport then 4 else 200)
      (if forExport then none else some backgroundColor)
  else
    let contentWidth : ℚ := (maxX : ℚ) - (minX : ℚ) + 1
    let contentHeight : ℚ := (maxY : ℚ) - (minY : ℚ) + 1
    if forExport then
      RenderOutput.content (contentWidth + 4) (contentHeight + 4) none
        (minX : ℚ) (minY : ℚ) contentWidth contentHeight 2 2
    else
      RenderOutput.content (tw + 20) (currentY + 20) (some backgroundColor)
        0 0 tw currentY 10 10

/-- The final canvas of a full render pass: the drawn height comes from
the wrapped lines, the bounding box from the pixel scan. -/
def renderOutput (forExport : Bool) (lines : List LineData) (hasContent : Bool)
    (minX minY maxX maxY : ℕ) (defaultFontSize lh tw : ℚ) (backgroundColor : String) :
    RenderOutput :=
  finalizeCanvas forExport hasContent minX minY maxX maxY
    (totalDrawnHeight lines defaultFontSize lh) tw backgroundColor

/-! ### Shared auxiliary predicates and concrete sample data -/

/-- `position` lies in the half-open interval of the range. -/
def matchesAt (r : StyledRange) (pos : ℕ) : Prop :=
  r.start ≤ pos ∧ pos < r.stop

/-- The documented non-overlap invariant over the declared order of ranges. -/
def pairwiseDisjoint (ranges : List StyledRange) : Prop :=
  ranges.Pairwise (fun r1 r2 => r1.stop ≤ r2.start ∨ r2.stop ≤ r1.start)

/-- A concrete style used for sample inputs (the defaults of the editor,
with no per-style alignment). -/
def sampleStyle : TextStyle :=
  { fontSize := 10, fontFamily := "Arial", textColor := "#737373",
    isBold := false, isItalic := false, isUnderline := false,
    letterSpacing := 0, wordSpacing := 0, textAlign := none }

/-- A measured sample segment with the default style. -/
def segOf (c : Char) (w : ℚ) : LineSegment :=
  { char := c, style := sampleStyle, width := w }

/-- A measured sample segment whose style carries an explicit center
alignment. -/
def segCenter (c : Char) (w : ℚ) : LineSegment :=
  { char := c, style := { sampleStyle with textAlign := some Align.center }, width := w }

/-- `find?` returns the first match when everything before it fails. -/
lemma find?_first {α : Type} (p : α → Bool) (l1 : List α) (a : α) (l2 : List α)
    (ha : p a = true) (hl1 : ∀ x ∈ l1, ¬ p x = true) :
    (l1 ++ a :: l2).find? p = some a := by
  induction l1 with
  | nil => simpa using List.find?_cons_of_pos _ ha
  | cons y ys ih =>
    rw [List.cons_append, List.find?_cons_of_neg _ (hl1 y (by simp))]
    exact ih (fun x hx => hl1 x (by simp [hx]))

/-! ### C6: the style resolver -/

/-- C6.  `getStyleForPosition` returns the default style when no range
contains the position; it returns the style of the first (in declared
order) range containing the position; and once the ranges are pairwise
non-overlapping, any range containing the position determines the result,
so every position resolves to exactly one unambiguous style. -/
theorem resolver_spec (ranges : List StyledRange) (d : TextStyle) (pos : ℕ) :
    ((∀ r ∈ ranges, ¬ matchesAt r pos) → getStyleForPosition ranges d pos = d)
    ∧ (∀ (l1 : List StyledRange) (r : StyledRange) (l2 : List StyledRange),
        ranges = l1 ++ r :: l2 → matchesAt r pos → (∀ r1 ∈ l1, ¬ matchesAt r1 pos) →
        getStyleForPosition ranges d pos = r.style)
    ∧ (pairwiseDisjoint ranges → ∀ r ∈ ranges, matchesAt r pos →
        getStyleForPosition ranges d pos = r.style) := by
  refine ⟨?_, ?_, ?_⟩
  · intro h
    have hf : (ranges.find? fun range => decide (range.start ≤ pos) && decide (pos < range.stop)) = none := by
      rw [List.find?_eq_none]
      intro x hx
      simpa [matchesAt] using h x hx
    simp [getStyleForPosition, hf]
  · intro l1 r l2 hr hm hl1
    have hf : (ranges.find? fun range => decide (range.start ≤ pos) && decide (pos < range.stop)) = some r := by
      rw [hr]
      refine find?_first _ l1 r l2 (by simpa [matchesAt] using hm) ?_
      intro x hx
      simpa [matchesAt] using hl1 x hx
    simp [getStyleForPosition, hf]
  · intro hpd r hr hm
    have hsome : (ranges.find? fun range => decide (range.start ≤ pos) && decide (pos < range.stop)).isSome := by
      rw [List.find?_isSome]
      exact ⟨r, hr, by simpa [matchesAt] using hm⟩
    obtain ⟨r0, hr0⟩ := Option.isSome_iff_exists.mp hsome
    have hm0 : matchesAt r0 pos := by
      have hp0 := (List.find?_eq_some.mp hr0).1
      simpa [matchesAt] using hp0
    have hmem0 : r0 ∈ ranges := List.mem_of_find?_eq_some hr0
    by_cases heq : r0 = r
    · subst heq
      simp [getStyleForPosition, hr0]
    · exfalso
      have hsymm : Symmetric (fun r1 r2 : StyledRange => r1.stop ≤ r2.start ∨ r2.stop ≤ r1.start) := by
        intro a b h
        tauto
      have hrel := (List.Pairwise.forall hsymm hpd) hmem0 hr heq
      rcases hm0 with ⟨h1, h2⟩
      rcases hm with ⟨h3, h4⟩
      omega

/-- Two concrete valid, disjoint sample ranges. -/
def sampleRangeA : StyledRange :=
  { id := "a", start := 0, stop := 2, style := sampleStyle, text := "ab" }

/-- See `sampleRangeA`. -/
def sampleRangeB : StyledRange :=
  { id := "b", start := 2, stop := 5, style := { sampleStyle with isBold := true }, text := "cde" }

/-- See `sampleRangeA`. -/
def sampleRanges : List StyledRange := [sampleRangeA, sampleRangeB]

/-- Witness for C6 at a concrete input: a two-range document where
position 3 falls in the second range. -/
theorem resolver_spec_witness :
    pairwiseDisjoint sampleRanges
    ∧ matchesAt sampleRangeB 3
    ∧ getStyleForPosition sampleRanges sampleStyle 3 = sampleRangeB.style := by
  have hpd : pairwiseDisjoint sampleRanges := by
    simp [pairwiseDisjoint, sampleRanges, sampleRangeA, sampleRangeB]
  have hm : matchesAt sampleRangeB 3 := by
    constructor
    · norm_num [sampleRangeB]
    · norm_num [sampleRangeB]
  exact ⟨hpd, hm,
    (resolver_spec sampleRanges sampleStyle 3).2.2 hpd sampleRangeB (by simp [sampleRanges]) hm⟩

/-! ### C5: insertion removes every overlapping range in full -/

/-- C5.  Applying a style to `[s, e)` removes in full exactly the ranges
that share at least one position with `[s, e)` and appends the new range;
the kept-range test of the code is equivalent to "no shared position" for
valid ranges.  In particular applying a style to `[2, 5)` and then another
to `[4, 8)` leaves exactly the single range `[4, 8)` with the second
style. -/
theorem overlap_replace_spec (ranges : List StyledRange) (txt txt2 : String)
    (sty sty2 : TextStyle) (i i2 : String) (s e : ℕ)
    (hse : s < e) (hvalid : ∀ r ∈ ranges, r.start < r.stop) :
    applyStyleToSelection (some (s, e)) txt sty i ranges =
      (ranges.filter (fun r => decide (r.stop ≤ s) || decide (e ≤ r.start)))
        ++ [{ id := i, start := s, stop := e, style := sty, text := sliceText txt s e }]
    ∧ (∀ r ∈ ranges,
        (r.stop ≤ s ∨ e ≤ r.start) ↔ ¬ ∃ p, (r.start ≤ p ∧ p < r.stop) ∧ (s ≤ p ∧ p < e))
    ∧ applyStyleToSelection (some (4, 8)) txt2 sty2 i2
        (applyStyleToSelection (some (2, 5)) txt sty i []) =
      [{ id := i2, start := 4, stop := 8, style := sty2, text := sliceText txt2 4 8 }] := by
  refine ⟨?_, ?_, ?_⟩
  · have hne : ¬ s = e := Nat.ne_of_lt hse
    simp [applyStyleToSelection, hne]
  · intro r hr
    have hv := hvalid r hr
    constructor
    · rintro h ⟨p, ⟨hp1, hp2⟩, hp3, hp4⟩
      omega
    · intro h
      by_contra hk
      push_neg at hk
      exact h ⟨max r.start s, ⟨by omega, by omega⟩, by omega, by omega⟩
  · rfl

/-- Witness for C5: two valid ranges, one overlapping `[3, 6)` and one
not; the overlapping one is removed, the other kept, the new one added. -/
theorem overlap_replace_spec_witness :
    ((3 : ℕ) < 6 ∧
      (∀ r ∈ ([{ id := "a", start := 0, stop := 2, style := sampleStyle, text := "xy" },
                { id := "b", start := 5, stop := 9, style := sampleStyle, text := "pqrs" }] : List StyledRange),
         r.start < r.stop))
    ∧ applyStyleToSelection (some (3, 6)) "hello worlds" sampleStyle "c"
        [{ id := "a", start := 0, stop := 2, style := sampleStyle, text := "xy" },
         { id := "b", start := 5, stop := 9, style := sampleStyle, text := "pqrs" }]
      = [{ id := "a", start := 0, stop := 2, style := sampleStyle, text := "xy" },
         { id := "c", start := 3, stop := 6, style := sampleStyle, text := sliceText "hello worlds" 3 6 }] := by
  refine ⟨⟨by norm_num, by intro r hr; fin_cases hr <;> simp⟩, ?_⟩
  have h := (overlap_replace_spec
      [{ id := "a", start := 0, stop := 2, style := sampleStyle, text := "xy" },
       { id := "b", start := 5, stop := 9, style := sampleStyle, text := "pqrs" }]
      "hello worlds" "hello worlds" sampleStyle sampleStyle "c" "c" 3 6
      (by norm_num) (by intro r hr; fin_cases hr <;> simp)).1
  rw [h]
  rfl

/-! ### C9: rejection of degenerate selections -/

/-- C9 corrected part: the code only rejects an absent selection or one
with `start = end`; those leave the ranges unchanged. -/
theorem selection_reject_amended (ranges : List StyledRange) (txt : String)
    (sty : TextStyle) (i : String) (s : ℕ) :
    applyStyleToSelection none txt sty i ranges = ranges
    ∧ applyStyleToSelection (some (s, s)) txt sty i ranges = ranges := by
  constructor
  · rfl
  · simp [applyStyleToSelection]

/-- C9 counterexample: a selection with `start = 5 > 3 = end` is *not*
rejected — a (degenerate) range is created, so the range set changes,
contradicting the claim that every `start ≥ end` request is rejected. -/
theorem invalid_range_counterexample :
    applyStyleToSelection (some (5, 3)) "hello" sampleStyle "r1" []
      = [{ id := "r1", start := 5, stop := 3, style := sampleStyle, text := "" }]
    ∧ applyStyleToSelection (some (5, 3)) "hello" sampleStyle "r1" [] ≠ [] := by
  constructor
  · rfl
  · intro h
    simp [applyStyleToSelection] at h

/-! ### C7 and C8: output surfaces of the rasterizer -/

/-- C7.  In Export mode, when some non-transparent pixel was drawn the
output surface is exactly `boundingBoxWidth + 4` by `boundingBoxHeight +
4`, its background stays fully transparent, and the bounding-box content
is copied in at offset `(2, 2)`; when nothing was drawn the output is a
4×4 fully transparent surface. -/
theorem export_surface_spec (lines : List LineData) (minX minY maxX maxY : ℕ)
    (dfs lh tw : ℚ) (bg : String) :
    renderOutput true lines true minX minY maxX maxY dfs lh tw bg
      = RenderOutput.content (((maxX : ℚ) - (minX : ℚ) + 1) + 4)
          (((maxY : ℚ) - (minY : ℚ) + 1) + 4) none
          (minX : ℚ) (minY : ℚ) ((maxX : ℚ) - (minX : ℚ) + 1) ((maxY : ℚ) - (minY : ℚ) + 1) 2 2
    ∧ renderOutput true lines false minX minY maxX maxY dfs lh tw bg
      = RenderOutput.blank 4 4 none := by
  constructor <;> rfl

/-- C8.  In Preview mode with drawn content, the output surface is exactly
`targetWidth + 20` wide by `(total drawn height) + 20` high, the
background is filled with the configured background color, and the entire
`targetWidth`-wide drawn region of height `currentY` (not the tight
bounding box) is copied in at offset `(10, 10)`. -/
theorem preview_surface_spec (lines : List LineData) (minX minY maxX maxY : ℕ)
    (dfs lh tw : ℚ) (bg : String) :
    renderOutput false lines true minX minY maxX maxY dfs lh tw bg
      = RenderOutput.content (tw + 20) (totalDrawnHeight lines dfs lh + 20) (some bg)
          0 0 tw (totalDrawnHeight lines dfs lh) 10 10 := by
  rfl

/-! ### Plumbing lemmas about the wrap accumulator -/

@[simp] lemma alignUpdate_lines (ta : Align) (st : WrapState) (seg : LineSegment) :
    (alignUpdate ta st seg).lines = st.lines := by
  unfold alignUpdate
  split
  · split <;> rfl
  · rfl

@[simp] lemma alignUpdate_segments (ta : Align) (st : WrapState) (seg : LineSegment) :
    (alignUpdate ta st seg).currentLineSegments = st.currentLineSegments := by
  unfold alignUpdate
  split
  · split <;> rfl
  · rfl

@[simp] lemma alignUpdate_width (ta : Align) (st : WrapState) (seg : LineSegment) :
    (alignUpdate ta st seg).currentLineMetricsWidth = st.currentLineMetricsWidth := by
  unfold alignUpdate
  split
  · split <;> rfl
  · rfl

@[simp] lemma alignUpdate_maxHeight (ta : Align) (st : WrapState) (seg : LineSegment) :
    (alignUpdate ta st seg).currentLineMaxHeight = st.currentLineMaxHeight := by
  unfold alignUpdate
  split
  · split <;> rfl
  · rfl

@[simp] lemma alignUpdate_spaces (ta : Align) (st : WrapState) (seg : LineSegment) :
    (alignUpdate ta st seg).currentLineSpaces = st.currentLineSpaces := by
  unfold alignUpdate
  split
  · split <;> rfl
  · rfl

/-- All the segments held by an accumulator state, finalized or pending. -/
def flatState (st : WrapState) : List LineSegment :=
  (st.lines.map (fun l => l.segments)).join ++ st.currentLineSegments

lemma flat_processLine (ta : Align) (st : WrapState) :
    flatState (processLine ta st) = flatState st := by
  unfold flatState processLine
  by_cases h : st.currentLineSegments.length > 0
  · simp [h]
  · have h0 : st.currentLineSegments = [] := by
      cases hc : st.currentLineSegments with
      | nil => rfl
      | cons a l => rw [hc] at h; simp at h
    simp [h, h0]

lemma flat_alignUpdate (ta : Align) (st : WrapState) (seg : LineSegment) :
    flatState (alignUpdate ta st seg) = flatState st := by
  unfold flatState
  simp

lemma flat_appendSeg (lh : ℚ) (st : WrapState) (seg : LineSegment) :
    flatState (appendSeg lh st seg) = flatState st ++ [seg] := by
  unfold flatState appendSeg
  simp

lemma flat_breakCurrent (lh : ℚ) (ta : Align) (st : WrapState) :
    flatState (breakCurrent lh ta st) = flatState st := by
  unfold breakCurrent
  cases hls : lastSpaceIdx st.currentLineSegments with
  | none => exact flat_processLine ta st
  | some k =>
    unfold flatState processLine
    by_cases h : (st.currentLineSegments.take (k + 1)).length > 0
    · simp only [h, if_pos]
      simp [List.append_assoc]
    · have h0 : st.currentLineSegments.take (k + 1) = [] := by
        cases hc : st.currentLineSegments.take (k + 1) with
        | nil => rfl
        | cons a l => rw [hc] at h; simp at h
      have h0' : st.currentLineSegments = [] := by
        rcases List.take_eq_nil_iff.mp h0 with h' | h'
        · omega
        · exact h' 
      simp [h, h0, h0']

lemma flat_wrapStep (tw lh : ℚ) (ta : Align) (st : WrapState) (seg : LineSegment) :
    flatState (wrapStep tw lh ta st seg)
      = flatState st ++ (if seg.char = '\n' then [] else [seg]) := by
  unfold wrapStep
  by_cases hnl : seg.char = '\n'
  · simp only [hnl, if_pos]
    rw [flat_processLine, flat_alignUpdate]
    simp [hnl]
  · simp only [hnl, if_neg, if_false]
    split
    · rw [flat_appendSeg, flat_breakCurrent, flat_alignUpdate]
    · rw [flat_appendSeg, flat_alignUpdate]

lemma flat_foldl (tw lh : ℚ) (ta : Align) (segs : List LineSegment) :
    ∀ st : WrapState,
      flatState (segs.foldl (wrapStep tw lh ta) st)
        = flatState st ++ segs.filter (fun s => decide (s.char ≠ '\n')) := by
  induction segs with
  | nil => intro st; simp
  | cons s rest ih =>
    intro st
    rw [List.foldl_cons, ih, flat_wrapStep, List.filter_cons]
    by_cases h : s.char = '\n' <;> simp [h, List.append_assoc]

/-! ### C10: wrapping conserves the segments -/

/-- C10.  Concatenating the segment lists of the wrapped lines, in order,
yields exactly the input segments with the newline segments removed: no
segment is lost, duplicated, reordered, or altered by wrapping. -/
theorem wrap_conservation (segs : List LineSegment) (tw lh : ℚ) (ta : Align)
    (htw : 0 < tw) :
    ((wrapStyledSegments segs tw lh ta).map (fun l => l.segments)).join
      = segs.filter (fun s => decide (s.char ≠ '\n')) := by
  unfold wrapStyledSegments
  have h2 : ((processLine ta (segs.foldl (wrapStep tw lh ta) (initWrapState ta))).lines.map
        (fun l => l.segments)).join
      = flatState (processLine ta (segs.foldl (wrapStep tw lh ta) (initWrapState ta))) := by
    unfold flatState
    rw [show (processLine ta (segs.foldl (wrapStep tw lh ta) (initWrapState ta))).currentLineSegments
          = [] from rfl]
    simp
  rw [h2, flat_processLine, flat_foldl]
  simp [flatState, initWrapState]

/-- Witness for C10 on a concrete input containing a newline. -/
theorem wrap_conservation_witness :
    (0 : ℚ) < 10
    ∧ ((wrapStyledSegments [segOf 'a' 1, segOf '\n' 0, segOf 'b' 2] 10 1 Align.left).map
          (fun l => l.segments)).join
        = [segOf 'a' 1, segOf 'b' 2] := by
  refine ⟨by norm_num, ?_⟩
  rw [wrap_conservation [segOf 'a' 1, segOf '\n' 0, segOf 'b' 2] 10 1 Align.left (by norm_num)]
  rfl

/-! ### C3: explicit line breaks -/

/-- The maximal runs of non-newline segments, split at newline segments
(`k` newlines give `k + 1` chunks, possibly empty). -/
def splitOnNl : List LineSegment → List (List LineSegment)
  | [] => [[]]
  | s :: rest =>
    if s.char = '\n' then [] :: splitOnNl rest
    else
      match splitOnNl rest with
      | c :: cs => (s :: c) :: cs
      | [] => [[s]]

lemma splitOnNl_ne_nil (segs : List LineSegment) : splitOnNl segs ≠ [] := by
  cases segs with
  | nil => simp [splitOnNl]
  | cons s rest =>
    unfold splitOnNl
    by_cases h : s.char = '\n'
    · simp [h]
    · simp only [h, if_neg, if_false]
      cases splitOnNl rest <;> simp

lemma splitOnNl_shape (segs : List LineSegment) :
    splitOnNl segs = (splitOnNl segs).headI :: (splitOnNl segs).tail := by
  cases h : splitOnNl segs with
  | nil => exact absurd h (splitOnNl_ne_nil segs)
  | cons c cs => rfl

lemma splitOnNl_nl (s : LineSegment) (rest : List LineSegment) (h : s.char = '\n') :
    splitOnNl (s :: rest) = [] :: splitOnNl rest := by
  simp [splitOnNl, h]

lemma splitOnNl_not_nl_eq (s : LineSegment) (rest : List LineSegment) (h : ¬ s.char = '\n') :
    splitOnNl (s :: rest) = (s :: (splitOnNl rest).headI) :: (splitOnNl rest).tail := by
  cases hc : splitOnNl rest with
  | nil => exact absurd hc (splitOnNl_ne_nil rest)
  | cons c cs =>
    simp only [splitOnNl]
    rw [if_neg h, hc]
    rfl

lemma splitOnNl_mem (segs : List LineSegment) :
    ∀ c ∈ splitOnNl segs, ∀ x ∈ c, x ∈ segs := by
  induction segs with
  | nil =>
    intro c hc x hx
    simp [splitOnNl] at hc
    subst hc
    simp at hx
  | cons s rest ih =>
    intro c hc x hx
    by_cases h : s.char = '\n'
    · rw [splitOnNl_nl s rest h, List.mem_cons] at hc
      rcases hc with hc | hc
      · subst hc; simp at hx
      · exact List.mem_cons_of_mem s (ih c hc x hx)
    · rw [splitOnNl_not_nl_eq s rest h, List.mem_cons] at hc
      rcases hc with hc | hc
      · subst hc
        rw [List.mem_cons] at hx
        rcases hx with hx | hx
        · rw [hx]
          exact List.mem_cons_self _ _
        · refine List.mem_cons_of_mem s (ih (splitOnNl rest).headI ?_ x hx)
          rw [splitOnNl_shape rest]
          exact List.mem_cons_self _ _
      · refine List.mem_cons_of_mem s (ih c ?_ x hx)
        rw [splitOnNl_shape rest]
        exact List.mem_cons_of_mem _ hc

lemma splitOnNl_no_nl (segs : List LineSegment) :
    ∀ c ∈ splitOnNl segs, ∀ x ∈ c, x.char ≠ '\n' := by
  induction segs with
  | nil =>
    intro c hc x hx
    simp [splitOnNl] at hc
    subst hc
    simp at hx
  | cons s rest ih =>
    intro c hc x hx
    by_cases h : s.char = '\n'
    · rw [splitOnNl_nl s rest h, List.mem_cons] at hc
      rcases hc with hc | hc
      · subst hc; simp at hx
      · exact ih c hc x hx
    · rw [splitOnNl_not_nl_eq s rest h, List.mem_cons] at hc
      rcases hc with hc | hc
      · subst hc
        rw [List.mem_cons] at hx
        rcases hx with hx | hx
        · subst hx; exact h
        · refine ih (splitOnNl rest).headI ?_ x hx
          rw [splitOnNl_shape rest]
          exact List.mem_cons_self _ _
      · refine ih c ?_ x hx
        rw [splitOnNl_shape rest]
        exact List.mem_cons_of_mem _ hc

lemma splitOnNl_length (segs : List LineSegment) :
    (splitOnNl segs).length = segs.countP (fun s => decide (s.char = '\n')) + 1 := by
  induction segs with
  | nil => simp [splitOnNl]
  | cons s rest ih =>
    by_cases h : s.char = '\n'
    · rw [splitOnNl_nl s rest h, List.countP_cons]
      simp [h, ih]
    · rw [splitOnNl_not_nl_eq s rest h, List.countP_cons]
      have hlen : ((s :: (splitOnNl rest).headI) :: (splitOnNl rest).tail).length
          = (splitOnNl rest).length := by
        rw [splitOnNl_shape rest]
        simp
      rw [hlen, ih]
      simp [h]

lemma headI_cons {α : Type} [Inhabited α] (a : α) (l : List α) : (a :: l).headI = a := rfl

lemma sumW_nil : sumW [] = 0 := rfl

lemma sumW_cons (s : LineSegment) (l : List LineSegment) :
    sumW (s :: l) = s.width + sumW l := by
  simp [sumW]

lemma sumW_append (l1 l2 : List LineSegment) :
    sumW (l1 ++ l2) = sumW l1 + sumW l2 := by
  simp [sumW]

lemma sumW_nonneg (l : List LineSegment) (h : ∀ s ∈ l, 0 ≤ s.width) :
    0 ≤ sumW l := by
  induction l with
  | nil => simp [sumW]
  | cons s rest ih =>
    rw [sumW_cons]
    have h1 := h s (List.mem_cons_self s rest)
    have h2 := ih (fun x hx => h x (List.mem_cons_of_mem s hx))
    linarith

/-- The accumulator run over a list of segments that triggers no break:
every chunk fits within the remaining width, so the fold just appends and
splits at newlines. -/
lemma foldl_chunks (tw lh : ℚ) (ta : Align) (segs : List LineSegment) :
    ∀ st : WrapState,
      st.currentLineMetricsWidth = sumW st.currentLineSegments →
      (∀ s ∈ segs, 0 ≤ s.width) →
      st.currentLineMetricsWidth + sumW (splitOnNl segs).headI ≤ tw →
      (∀ c ∈ (splitOnNl segs).tail, sumW c ≤ tw) →
      ((processLine ta (segs.foldl (wrapStep tw lh ta) st)).lines.map (fun l => l.segments))
        = (st.lines.map (fun l => l.segments))
          ++ (((st.currentLineSegments ++ (splitOnNl segs).headI) :: (splitOnNl segs).tail).filter
                (fun c => decide (c ≠ []))) := by
  induction segs with
  | nil =>
    intro st hwf hnn h1 h2
    simp only [List.foldl_nil, splitOnNl]
    unfold processLine
    by_cases h : st.currentLineSegments.length > 0
    · have hne : st.currentLineSegments ≠ [] := by
        intro h0; rw [h0] at h; simp at h
      simp [h, hne]
    · have h0 : st.currentLineSegments = [] := by
        cases hc : st.currentLineSegments with
        | nil => rfl
        | cons a l => rw [hc] at h; simp at h
      simp [h, h0]
  | cons s rest ih =>
    intro st hwf hnn h1 h2
    by_cases hnl : s.char = '\n'
    · have hstep : wrapStep tw lh ta st s = processLine ta (alignUpdate ta st s) := by
        simp [wrapStep, hnl]
      rw [List.foldl_cons, hstep]
      rw [splitOnNl_nl s rest hnl] at h1 h2 ⊢
      simp only [headI_cons, List.tail_cons] at h1 h2 ⊢
      have hmemh : (splitOnNl rest).headI ∈ splitOnNl rest := by
        rw [splitOnNl_shape rest]
        exact List.mem_cons_self _ _
      have ihres := ih (processLine ta (alignUpdate ta st s))
        (by rw [show (processLine ta (alignUpdate ta st s)).currentLineSegments = [] from rfl,
                show (processLine ta (alignUpdate ta st s)).currentLineMetricsWidth = 0 from rfl,
                sumW_nil])
        (fun x hx => hnn x (List.mem_cons_of_mem s hx))
        (by rw [show (processLine ta (alignUpdate ta st s)).currentLineMetricsWidth = 0 from rfl]
            have := h2 (splitOnNl rest).headI hmemh
            linarith)
        (fun c hc => h2 c (by rw [splitOnNl_shape rest]; exact List.mem_cons_of_mem _ hc))
      rw [ihres]
      have hlines : (processLine ta (alignUpdate ta st s)).lines.map (fun l => l.segments)
          = st.lines.map (fun l => l.segments)
            ++ (if st.currentLineSegments = [] then ([] : List (List LineSegment))
                else [st.currentLineSegments]) := by
        unfold processLine
        by_cases h : st.currentLineSegments.length > 0
        · have hne : st.currentLineSegments ≠ [] := by
            intro h0; rw [h0] at h; simp at h
          simp [h, hne]
        · have h0 : st.currentLineSegments = [] := by
            cases hc : st.currentLineSegments with
            | nil => rfl
            | cons a l => rw [hc] at h; simp at h
          simp [h, h0]
      rw [hlines, show (processLine ta (alignUpdate ta st s)).currentLineSegments = [] from rfl]
      rw [splitOnNl_shape rest]
      by_cases hcur : st.currentLineSegments = []
      · simp [hcur, List.filter_cons]
      · simp [hcur, List.filter_cons, List.append_assoc]
    · rw [splitOnNl_not_nl_eq s rest hnl] at h1 h2 ⊢
      simp only [headI_cons, List.tail_cons] at h1 h2 ⊢
      have hh : ∀ x ∈ (splitOnNl rest).headI, 0 ≤ x.width := by
        intro x hx
        refine hnn x (List.mem_cons_of_mem s (splitOnNl_mem rest _ ?_ x hx))
        rw [splitOnNl_shape rest]
        exact List.mem_cons_self _ _
      have hheadnn : 0 ≤ sumW (splitOnNl rest).headI := sumW_nonneg _ hh
      rw [sumW_cons] at h1
      have hnofire : ¬ (tw < (alignUpdate ta st s).currentLineMetricsWidth + s.width
          ∧ 0 < (alignUpdate ta st s).currentLineSegments.length) := by
        rw [alignUpdate_width, alignUpdate_segments]
        intro hcon
        rw [hwf] at hcon
        rw [hwf] at h1
        have := hcon.1
        linarith
      have hstep : wrapStep tw lh ta st s = appendSeg lh (alignUpdate ta st s) s := by
        unfold wrapStep
        simp only [hnl, if_neg, if_false]
        rw [if_neg hnofire]
      rw [List.foldl_cons, hstep]
      have ihres := ih (appendSeg lh (alignUpdate ta st s) s)
        (by unfold appendSeg
            simp [hwf, sumW_append, sumW_cons, sumW_nil])
        (fun x hx => hnn x (List.mem_cons_of_mem s hx))
        (by unfold appendSeg
            simp only [alignUpdate_width]
            rw [hwf]
            linarith)
        h2
      rw [ihres]
      unfold appendSeg
      simp [List.append_assoc]

/-- C3 corrected.  When no width-triggered break occurs (every chunk
between newlines fits in `targetWidth`), the wrapped lines are exactly the
*non-empty* chunks between consecutive newline segments, in order; no
newline segment appears in any line; and when every chunk is non-empty
(no leading, trailing or adjacent newlines) the number of lines is exactly
`count(newlines) + 1`. -/
theorem hard_break_amended (segs : List LineSegment) (tw lh : ℚ) (ta : Align)
    (hw : ∀ s ∈ segs, 0 ≤ s.width)
    (hfit : ∀ c ∈ splitOnNl segs, sumW c ≤ tw) :
    ((wrapStyledSegments segs tw lh ta).map (fun l => l.segments))
      = (splitOnNl segs).filter (fun c => decide (c ≠ []))
    ∧ (∀ l ∈ wrapStyledSegments segs tw lh ta, ∀ x ∈ l.segments, x.char ≠ '\n')
    ∧ ((∀ c ∈ splitOnNl segs, c ≠ []) →
        (wrapStyledSegments segs tw lh ta).length
          = segs.countP (fun s => decide (s.char = '\n')) + 1) := by
  have hmemh : (splitOnNl segs).headI ∈ splitOnNl segs := by
    rw [splitOnNl_shape segs]
    exact List.mem_cons_self _ _
  have hmain : ((wrapStyledSegments segs tw lh ta).map (fun l => l.segments))
      = (splitOnNl segs).filter (fun c => decide (c ≠ [])) := by
    unfold wrapStyledSegments
    have := foldl_chunks tw lh ta segs (initWrapState ta)
      (by simp [initWrapState, sumW_nil])
      hw
      (by simp only [initWrapState]
          have := hfit (splitOnNl segs).headI hmemh
          linarith)
      (fun c hc => hfit c (by rw [splitOnNl_shape segs]; exact List.mem_cons_of_mem _ hc))
    rw [this]
    simp only [initWrapState, List.map_nil, List.nil_append]
    rw [← splitOnNl_shape segs]
  refine ⟨hmain, ?_, ?_⟩
  · intro l hl x hx
    have hseg : l.segments ∈ (wrapStyledSegments segs tw lh ta).map (fun l => l.segments) :=
      List.mem_map_of_mem _ hl
    rw [hmain] at hseg
    exact splitOnNl_no_nl segs l.segments (List.mem_of_mem_filter hseg) x hx
  · intro hne
    have hlen : (wrapStyledSegments segs tw lh ta).length
        = ((wrapStyledSegments segs tw lh ta).map (fun l => l.segments)).length := by
      rw [List.length_map]
    rw [hlen, hmain, List.filter_eq_self.mpr (fun c hc => by simpa using hne c hc),
      splitOnNl_length]

/-- Char comparison facts used to evaluate concrete wrap runs. -/
lemma char_a_ne_nl : ('a' : Char) ≠ '\n' := by decide

/-- See `char_a_ne_nl`. -/
lemma char_a_ne_sp : ('a' : Char) ≠ ' ' := by decide

/-- See `char_a_ne_nl`. -/
lemma char_b_ne_nl : ('b' : Char) ≠ '\n' := by decide

/-- See `char_a_ne_nl`. -/
lemma char_b_ne_sp : ('b' : Char) ≠ ' ' := by decide

/-- See `char_a_ne_nl`. -/
lemma char_sp_ne_nl : (' ' : Char) ≠ '\n' := by decide

/-- Witness for C3 (amended) on `"a\nb"`: two chunks, two lines. -/
theorem hard_break_amended_witness :
    (∀ s ∈ [segOf 'a' 1, segOf '\n' 0, segOf 'b' 2], 0 ≤ s.width)
    ∧ (∀ c ∈ splitOnNl [segOf 'a' 1, segOf '\n' 0, segOf 'b' 2], sumW c ≤ 10)
    ∧ ((wrapStyledSegments [segOf 'a' 1, segOf '\n' 0, segOf 'b' 2] 10 1 Align.left).map
          (fun l => l.segments))
        = [[segOf 'a' 1], [segOf 'b' 2]]
    ∧ (wrapStyledSegments [segOf 'a' 1, segOf '\n' 0, segOf 'b' 2] 10 1 Align.left).length
        = 1 + 1 := by
  have hsplit : splitOnNl [segOf 'a' 1, segOf '\n' 0, segOf 'b' 2]
      = [[segOf 'a' 1], [segOf 'b' 2]] := by
    norm_num [splitOnNl, segOf, sampleStyle, char_a_ne_nl, char_b_ne_nl]
  have hw : ∀ s ∈ [segOf 'a' 1, segOf '\n' 0, segOf 'b' 2], 0 ≤ s.width := by
    intro s hs
    fin_cases hs <;> norm_num [segOf, sampleStyle]
  have hfit : ∀ c ∈ splitOnNl [segOf 'a' 1, segOf '\n' 0, segOf 'b' 2], sumW c ≤ 10 := by
    rw [hsplit]
    intro c hc
    fin_cases hc <;> norm_num [sumW, segOf, sampleStyle]
  have h := hard_break_amended [segOf 'a' 1, segOf '\n' 0, segOf 'b' 2] 10 1 Align.left hw hfit
  refine ⟨hw, hfit, ?_, ?_⟩
  · rw [h.1, hsplit]
    norm_num
  · rw [h.2.2 (by rw [hsplit]; intro c hc; fin_cases hc <;> simp)]
    norm_num [List.countP_cons, segOf, sampleStyle, char_a_ne_nl, char_b_ne_nl]

/-- C3 counterexample: the text `"a\n"` contains one newline and no
overflow, yet produces one line, not `1 + 1 = 2` — trailing (and adjacent)
newlines yield empty chunks which are dropped, so the claimed line count
fails. -/
theorem hard_break_counterexample :
    ([segOf 'a' 1, segOf '\n' 0].countP (fun s => decide (s.char = '\n'))) = 1
    ∧ (∀ c ∈ splitOnNl [segOf 'a' 1, segOf '\n' 0], sumW c ≤ 10)
    ∧ (wrapStyledSegments [segOf 'a' 1, segOf '\n' 0] 10 1 Align.left).length = 1
    ∧ ¬ ((wrapStyledSegments [segOf 'a' 1, segOf '\n' 0] 10 1 Align.left).length
          = [segOf 'a' 1, segOf '\n' 0].countP (fun s => decide (s.char = '\n')) + 1) := by
  have hcount : ([segOf 'a' 1, segOf '\n' 0].countP (fun s => decide (s.char = '\n'))) = 1 := by
    norm_num [List.countP_cons, segOf, sampleStyle, char_a_ne_nl]
  have hlen : (wrapStyledSegments [segOf 'a' 1, segOf '\n' 0] 10 1 Align.left).length = 1 := by
    norm_num [wrapStyledSegments, wrapStep, alignUpdate, breakCurrent, appendSeg, processLine,
      initWrapState, segOf, sampleStyle, lastSpaceIdx, sumW, maxHeightW, countSp,
      char_a_ne_nl, char_a_ne_sp]
  have hsplit : splitOnNl [segOf 'a' 1, segOf '\n' 0] = [[segOf 'a' 1], []] := by
    norm_num [splitOnNl, segOf, sampleStyle, char_a_ne_nl]
  refine ⟨hcount, ?_, hlen, ?_⟩
  · rw [hsplit]
    intro c hc
    fin_cases hc <;> norm_num [sumW, segOf, sampleStyle]
  · rw [hlen, hcount]
    norm_num

/-! ### C1: the width bound of the line breaker -/

/-- Any space in the list can only be its last element. -/
def SpacesOnlyLast (segs : List LineSegment) : Prop :=
  ∀ s ∈ segs.dropLast, s.char ≠ ' '

/-- A line either fits the target width or has no break-usable space. -/
def GoodLine (tw : ℚ) (l : LineData) : Prop :=
  l.metricsWidth ≤ tw ∨ SpacesOnlyLast l.segments

/-- The invariant the wrap accumulator maintains: cached width is the sum
of the pending widths, widths are non-negative, the pending line fits or
has spaces only at its end, and every finalized line is `GoodLine`. -/
def WidthInv (tw : ℚ) (st : WrapState) : Prop :=
  st.currentLineMetricsWidth = sumW st.currentLineSegments
  ∧ (∀ s ∈ st.currentLineSegments, 0 ≤ s.width)
  ∧ (st.currentLineMetricsWidth ≤ tw ∨ SpacesOnlyLast st.currentLineSegments)
  ∧ (∀ l ∈ st.lines, GoodLine tw l)

lemma lastSpaceIdx_none_spec (segs : List LineSegment) (h : lastSpaceIdx segs = none) :
    ∀ s ∈ segs, s.char ≠ ' ' := by
  induction segs with
  | nil => intro s hs; simp at hs
  | cons s rest ih =>
    intro x hx
    unfold lastSpaceIdx at h
    cases hr : lastSpaceIdx rest with
    | some k => rw [hr] at h; simp at h
    | none =>
      rw [hr] at h
      by_cases hc : s.char = ' '
      · rw [if_pos hc] at h; simp at h
      · rw [List.mem_cons] at hx
        rcases hx with hx | hx
        · rw [hx]; exact hc
        · exact ih hr x hx

lemma lastSpaceIdx_some_spec (segs : List LineSegment) (k : ℕ)
    (h : lastSpaceIdx segs = some k) :
    k < segs.length ∧ (∀ s ∈ segs.drop (k + 1), s.char ≠ ' ') := by
  induction segs generalizing k with
  | nil => simp [lastSpaceIdx] at h
  | cons s rest ih =>
    unfold lastSpaceIdx at h
    cases hr : lastSpaceIdx rest with
    | some k0 =>
      rw [hr] at h
      simp at h
      obtain ⟨h1, h2⟩ := ih k0 hr
      constructor
      · rw [← h]; simp; omega
      · rw [← h]; simpa using h2
    | none =>
      rw [hr] at h
      by_cases hc : s.char = ' '
      · rw [if_pos hc] at h
        simp at h
        constructor
        · rw [← h]; simp
        · rw [← h]; simpa using lastSpaceIdx_none_spec rest hr
      · rw [if_neg hc] at h; simp at h

/-- Under `SpacesOnlyLast`, a found last space must be the last element. -/
lemma lastSpaceIdx_spacesOnlyLast (segs : List LineSegment) (k : ℕ)
    (h : lastSpaceIdx segs = some k) (hso : SpacesOnlyLast segs) :
    k + 1 = segs.length := by
  induction segs generalizing k with
  | nil => simp [lastSpaceIdx] at h
  | cons s rest ih =>
    unfold lastSpaceIdx at h
    cases hr : lastSpaceIdx rest with
    | some k0 =>
      rw [hr] at h
      simp at h
      cases rest with
      | nil => simp [lastSpaceIdx] at hr
      | cons t ts =>
        have hso' : SpacesOnlyLast (t :: ts) := by
          intro x hx
          exact hso x (by rw [List.dropLast_cons₂]; exact List.mem_cons_of_mem _ hx)
        have := ih k0 hr hso'
        rw [← h]
        simpa using this
    | none =>
      rw [hr] at h
      by_cases hc : s.char = ' '
      · rw [if_pos hc] at h
        simp at h
        cases rest with
        | nil => rw [← h]; rfl
        | cons t ts =>
          exfalso
          refine hso s ?_ hc
          rw [List.dropLast_cons₂]
          exact List.mem_cons_self _ _
      · rw [if_neg hc] at h; simp at h

lemma sumW_take_le (segs : List LineSegment) (n : ℕ)
    (h : ∀ s ∈ segs, 0 ≤ s.width) : sumW (segs.take n) ≤ sumW segs := by
  conv_rhs => rw [← List.take_append_drop n segs]
  rw [sumW_append]
  have h0 : 0 ≤ sumW (segs.drop n) :=
    sumW_nonneg _ (fun s hs => h s (List.mem_of_mem_drop hs))
  linarith

lemma inv_processLine (tw : ℚ) (ta : Align) (st : WrapState) (h : WidthInv tw st) :
    WidthInv tw (processLine ta st) := by
  obtain ⟨h1, h2, h3, h4⟩ := h
  refine ⟨by simp [processLine, sumW_nil], by simp [processLine], ?_, ?_⟩
  · right
    intro s hs
    simp [processLine] at hs
  · intro l hl
    unfold processLine at hl
    by_cases hlen : st.currentLineSegments.length > 0
    · simp only [hlen, if_pos] at hl
      rw [List.mem_append] at hl
      rcases hl with hl | hl
      · exact h4 l hl
      · simp at hl
        rw [hl]
        exact h3
    · simp only [hlen, if_neg, if_false] at hl
      exact h4 l hl

lemma inv_appendSeg (tw lh : ℚ) (st : WrapState) (seg : LineSegment)
    (h : WidthInv tw st) (hw : 0 ≤ seg.width)
    (hgood : st.currentLineMetricsWidth + seg.width ≤ tw
      ∨ (∀ s ∈ st.currentLineSegments, s.char ≠ ' ')) :
    WidthInv tw (appendSeg lh st seg) := by
  obtain ⟨h1, h2, h3, h4⟩ := h
  refine ⟨?_, ?_, ?_, ?_⟩
  · simp [appendSeg, sumW_append, sumW_cons, sumW_nil, h1]
  · intro x hx
    simp only [appendSeg, List.mem_append, List.mem_singleton] at hx
    rcases hx with hx | hx
    · exact h2 x hx
    · rw [hx]; exact hw
  · rcases hgood with hg | hg
    · left
      simpa [appendSeg] using hg
    · right
      intro x hx
      simp only [appendSeg, List.dropLast_concat] at hx
      exact hg x hx
  · simpa [appendSeg] using h4

lemma inv_breakCurrent (tw lh : ℚ) (ta : Align) (st : WrapState) (h : WidthInv tw st) :
    WidthInv tw (breakCurrent lh ta st)
    ∧ (∀ s ∈ (breakCurrent lh ta st).currentLineSegments, s.char ≠ ' ') := by
  obtain ⟨h1, h2, h3, h4⟩ := h
  cases hls : lastSpaceIdx st.currentLineSegments with
  | none =>
    have e : breakCurrent lh ta st = processLine ta st := by
      unfold breakCurrent
      rw [hls]
    rw [e]
    refine ⟨inv_processLine tw ta st ⟨h1, h2, h3, h4⟩, ?_⟩
    intro s hs
    simp [processLine] at hs
  | some k =>
    obtain ⟨hk, hdrop⟩ := lastSpaceIdx_some_spec st.currentLineSegments k hls
    have e : breakCurrent lh ta st =
        { processLine ta
            { st with
              currentLineSegments := st.currentLineSegments.take (k + 1)
              currentLineMetricsWidth := sumW (st.currentLineSegments.take (k + 1))
              currentLineMaxHeight := maxHeightW lh (st.currentLineSegments.take (k + 1))
              currentLineSpaces := countSp (st.currentLineSegments.take (k + 1)) } with
          currentLineSegments := st.currentLineSegments.drop (k + 1)
          currentLineMetricsWidth := sumW (st.currentLineSegments.drop (k + 1))
          currentLineMaxHeight := maxHeightW lh (st.currentLineSegments.drop (k + 1))
          currentLineSpaces := countSp (st.currentLineSegments.drop (k + 1))
          currentLineEffectiveAlignment :=
            match (st.currentLineSegments.drop (k + 1)).head? with
            | some m =>
              match m.style.textAlign with
              | some a => a
              | none => ta
            | none => ta } := by
      unfold breakCurrent
      rw [hls]
    have hkeptGood : sumW (st.currentLineSegments.take (k + 1)) ≤ tw
        ∨ SpacesOnlyLast (st.currentLineSegments.take (k + 1)) := by
      rcases h3 with h3 | h3
      · left
        calc sumW (st.currentLineSegments.take (k + 1)) ≤ sumW st.currentLineSegments :=
              sumW_take_le _ _ h2
          _ ≤ tw := by rw [← h1]; exact h3
      · right
        have hkeq : k + 1 = st.currentLineSegments.length :=
          lastSpaceIdx_spacesOnlyLast _ k hls h3
        rw [hkeq, List.take_length]
        exact h3
    have hinv1 : WidthInv tw
        { st with
          currentLineSegments := st.currentLineSegments.take (k + 1)
          currentLineMetricsWidth := sumW (st.currentLineSegments.take (k + 1))
          currentLineMaxHeight := maxHeightW lh (st.currentLineSegments.take (k + 1))
          currentLineSpaces := countSp (st.currentLineSegments.take (k + 1)) } := by
      refine ⟨rfl, ?_, ?_, h4⟩
      · intro x hx
        exact h2 x (List.mem_of_mem_take hx)
      · exact hkeptGood
    have hinv2 := inv_processLine tw ta _ hinv1
    rw [e]
    constructor
    · refine ⟨rfl, ?_, ?_, ?_⟩
      · intro x hx
        exact h2 x (List.mem_of_mem_drop hx)
      · right
        intro x hx
        exact hdrop x (List.dropLast_subset _ hx)
      · exact hinv2.2.2.2
    · intro x hx
      exact hdrop x hx

lemma inv_wrapStep (tw lh : ℚ) (ta : Align) (st : WrapState) (seg : LineSegment)
    (h : WidthInv tw st) (hw : 0 ≤ seg.width) :
    WidthInv tw (wrapStep tw lh ta st seg) := by
  have hA : WidthInv tw (alignUpdate ta st seg) := by
    obtain ⟨h1, h2, h3, h4⟩ := h
    exact ⟨by simpa using h1, by simpa using h2, by simpa using h3, by simpa using h4⟩
  unfold wrapStep
  by_cases hnl : seg.char = '\n'
  · rw [if_pos hnl]
    exact inv_processLine tw ta _ hA
  · rw [if_neg hnl]
    by_cases hfire : tw < (alignUpdate ta st seg).currentLineMetricsWidth + seg.width
        ∧ 0 < (alignUpdate ta st seg).currentLineSegments.length
    · rw [if_pos hfire]
      obtain ⟨hB, hBsp⟩ := inv_breakCurrent tw lh ta _ hA
      exact inv_appendSeg tw lh _ seg hB hw (Or.inr hBsp)
    · rw [if_neg hfire]
      refine inv_appendSeg tw lh _ seg hA hw ?_
      rcases Decidable.not_and_iff_or_not.mp hfire with hng | hng
      · left
        push_neg at hng
        exact hng
      · right
        intro s hs
        exfalso
        have : (alignUpdate ta st seg).currentLineSegments = [] := by
          cases hc : (alignUpdate ta st seg).currentLineSegments with
          | nil => rfl
          | cons a l => rw [hc] at hng; simp at hng
        rw [this] at hs
        simp at hs

lemma inv_foldl (tw lh : ℚ) (ta : Align) (segs : List LineSegment) :
    ∀ st : WrapState, WidthInv tw st → (∀ s ∈ segs, 0 ≤ s.width) →
      WidthInv tw (segs.foldl (wrapStep tw lh ta) st) := by
  induction segs with
  | nil => intro st h _; simpa using h
  | cons s rest ih =>
    intro st h hw
    rw [List.foldl_cons]
    exact ih _ (inv_wrapStep tw lh ta st s h (hw s (List.mem_cons_self _ _)))
      (fun x hx => hw x (List.mem_cons_of_mem _ hx))

/-- C1 corrected.  With non-negative widths, every produced line that
contains a space anywhere before its last segment has `metricsWidth ≤
targetWidth`.  (A line exceeding `targetWidth` can only be space-free or
have a single trailing space — but it need *not* be a single segment, see
the counterexample.) -/
theorem wrap_width_bound_amended (segs : List LineSegment) (tw lh : ℚ) (ta : Align)
    (htw : 0 < tw) (hw : ∀ s ∈ segs, 0 ≤ s.width) :
    ∀ l ∈ wrapStyledSegments segs tw lh ta,
      (∃ s ∈ l.segments.dropLast, s.char = ' ') → l.metricsWidth ≤ tw := by
  have hinv0 : WidthInv tw (initWrapState ta) := by
    refine ⟨by simp [initWrapState, sumW_nil], by simp [initWrapState], ?_, by simp [initWrapState]⟩
    right
    intro s hs
    simp [initWrapState] at hs
  have hinv1 := inv_foldl tw lh ta segs (initWrapState ta) hinv0 hw
  have hinv2 := inv_processLine tw ta _ hinv1
  intro l hl hsp
  obtain ⟨s, hs, hsc⟩ := hsp
  rcases hinv2.2.2.2 l hl with hg | hg
  · exact hg
  · exact absurd hsc (hg s hs)

/-- Witness for C1 (amended): a line `"a b"` with an interior space fits
within the target width. -/
theorem wrap_width_bound_amended_witness :
    (0 : ℚ) < 10
    ∧ (∀ s ∈ [segOf 'a' 3, segOf ' ' 1, segOf 'b' 3], 0 ≤ s.width)
    ∧ ({ segments := [segOf 'a' 3, segOf ' ' 1, segOf 'b' 3], metricsWidth := 7,
         maxHeight := 10, spaces := 1, effectiveAlignment := Align.left } : LineData).metricsWidth
        ≤ 10 := by
  have hw : ∀ s ∈ [segOf 'a' 3, segOf ' ' 1, segOf 'b' 3], 0 ≤ s.width := by
    intro s hs
    fin_cases hs <;> norm_num [segOf, sampleStyle]
  have heval : wrapStyledSegments [segOf 'a' 3, segOf ' ' 1, segOf 'b' 3] 10 1 Align.left
      = [{ segments := [segOf 'a' 3, segOf ' ' 1, segOf 'b' 3], metricsWidth := 7,
           maxHeight := 10, spaces := 1, effectiveAlignment := Align.left }] := by
    norm_num [wrapStyledSegments, wrapStep, alignUpdate, breakCurrent, appendSeg, processLine,
      initWrapState, segOf, sampleStyle, lastSpaceIdx, sumW, maxHeightW, countSp,
      char_a_ne_nl, char_a_ne_sp, char_b_ne_nl, char_b_ne_sp, char_sp_ne_nl]
  refine ⟨by norm_num, hw, ?_⟩
  refine wrap_width_bound_amended [segOf 'a' 3, segOf ' ' 1, segOf 'b' 3] 10 1 Align.left
    (by norm_num) hw _ ?_ ?_
  · rw [heval]
    exact List.mem_cons_self _ _
  · refine ⟨segOf ' ' 1, ?_, rfl⟩
    simp

/-- C1 counterexample.  Input `" a b"`-like widths (space 1, `a` 9, space
3, `b` 1) at target width 10: after the first word-boundary break moves
`a` to a fresh line, the space (width 3) is still appended to that line,
giving the line `[a, " "]` with `metricsWidth = 12 > 10` — a line that
*contains a space* yet exceeds the target, while every single input
segment has width at most 10, so the overflow is not a single oversized
segment either.  Both parts of the claimed bound fail. -/
theorem wrap_width_bound_counterexample :
    wrapStyledSegments [segOf ' ' 1, segOf 'a' 9, segOf ' ' 3, segOf 'b' 1] 10 1 Align.left
      = [{ segments := [segOf ' ' 1], metricsWidth := 1, maxHeight := 10, spaces := 1,
           effectiveAlignment := Align.left },
         { segments := [segOf 'a' 9, segOf ' ' 3], metricsWidth := 12, maxHeight := 10, spaces := 1,
           effectiveAlignment := Align.left },
         { segments := [segOf 'b' 1], metricsWidth := 1, maxHeight := 10, spaces := 0,
           effectiveAlignment := Align.left }]
    ∧ ¬ ((12 : ℚ) ≤ 10)
    ∧ (segOf ' ' 1).width ≤ 10 ∧ (segOf 'a' 9).width ≤ 10
    ∧ (segOf ' ' 3).width ≤ 10 ∧ (segOf 'b' 1).width ≤ 10 := by
  refine ⟨?_, by norm_num, by norm_num [segOf], by norm_num [segOf], by norm_num [segOf],
    by norm_num [segOf]⟩
  norm_num [wrapStyledSegments, wrapStep, alignUpdate, breakCurrent, appendSeg, processLine,
    initWrapState, segOf, sampleStyle, lastSpaceIdx, sumW, maxHeightW, countSp,
    char_a_ne_nl, char_a_ne_sp, char_b_ne_nl, char_b_ne_sp, char_sp_ne_nl]

/-! ### C4: justification arithmetic -/

lemma countSp_cons (s : LineSegment) (rest : List LineSegment) :
    countSp (s :: rest) = (if s.char = ' ' then 1 else 0) + countSp rest := by
  simp [countSp, List.countP_cons]
  by_cases h : s.char = ' ' <;> simp [h] <;> omega

lemma xsFrom_getLast (extra : ℚ) (segs : List LineSegment) :
    ∀ (x : ℚ) (s : LineSegment) (xl : ℚ),
      (xsFrom x extra segs).getLast? = some (s, xl) →
      xl + advanceOf extra s = x + (segs.map (advanceOf extra)).sum := by
  induction segs with
  | nil => intro x s xl h; simp [xsFrom] at h
  | cons t rest ih =>
    intro x s xl h
    cases rest with
    | nil =>
      simp [xsFrom] at h
      rw [← h.1, ← h.2]
      simp
    | cons u us =>
      rw [show xsFrom x extra (t :: u :: us)
            = (t, x) :: (u, x + advanceOf extra t)
                :: xsFrom (x + advanceOf extra t + advanceOf extra u) extra us from rfl,
          List.getLast?_cons_cons] at h
      have := ih (x + advanceOf extra t) s xl h
      rw [List.map_cons, List.sum_cons, ← add_assoc]
      exact this

lemma sum_advance (extra : ℚ) (segs : List LineSegment) :
    (segs.map (advanceOf extra)).sum = sumW segs + extra * (countSp segs : ℚ) := by
  induction segs with
  | nil => simp [sumW, countSp]
  | cons s rest ih =>
    rw [List.map_cons, List.sum_cons, ih, sumW_cons, countSp_cons]
    unfold advanceOf
    by_cases h : s.char = ' '
    · simp only [h, if_pos]
      push_cast
      ring
    · simp only [h, if_neg, if_false]
      push_cast
      ring

/-- C4 corrected.  For a justified line (with a space and a non-space
segment, cached metrics consistent), the final pen position — the last
segment's x plus its advance including the post-space gap — equals
`targetWidth` exactly; hence the last segment's *right edge* (`x + width`)
equals `targetWidth` whenever the last segment is not a space.  (A line
ending in a space falls short by one `extraSpacePerGap`: see the
counterexample.) -/
theorem justify_sums_amended (segs : List LineSegment) (mh tw : ℚ)
    (hne : segs ≠ [])
    (hsp : 0 < countSp segs)
    (hns : segs.any (fun s => decide (s.char ≠ ' ')) = true)
    (s : LineSegment) (xl : ℚ)
    (hlast : (placeLine { segments := segs, metricsWidth := sumW segs, maxHeight := mh,
                          spaces := countSp segs, effectiveAlignment := Align.justify }
        tw).getLast? = some (s, xl)) :
    xl + advanceOf ((tw - sumW segs) / (countSp segs : ℚ)) s = tw
    ∧ (s.char ≠ ' ' → xl + s.width = tw) := by
  have hbranch : placeLine { segments := segs, metricsWidth := sumW segs, maxHeight := mh,
                             spaces := countSp segs, effectiveAlignment := Align.justify } tw
      = xsFrom 0 ((tw - sumW segs) / (countSp segs : ℚ)) segs := by
    unfold placeLine
    rw [if_pos ⟨rfl, hsp, hns⟩]
  rw [hbranch] at hlast
  have hl := xsFrom_getLast _ segs 0 s xl hlast
  rw [sum_advance] at hl
  have hc0 : ((countSp segs : ℚ)) ≠ 0 := by
    have : countSp segs ≠ 0 := Nat.pos_iff_ne_zero.mp hsp
    exact_mod_cast this
  have hmul : (tw - sumW segs) / (countSp segs : ℚ) * (countSp segs : ℚ) = tw - sumW segs :=
    div_mul_cancel₀ _ hc0
  have hmain : xl + advanceOf ((tw - sumW segs) / (countSp segs : ℚ)) s = tw := by
    rw [hl]
    linarith
  refine ⟨hmain, ?_⟩
  intro hns'
  have : advanceOf ((tw - sumW segs) / (countSp segs : ℚ)) s = s.width := by
    unfold advanceOf
    rw [if_neg hns']
    ring
  rw [this] at hmain
  exact hmain

/-- Witness for C4 (amended): the justified line `" a"` ends with the
non-space `a` drawn at `x = 7`, right edge `7 + 3 = 10 = targetWidth`. -/
theorem justify_sums_amended_witness :
    (0 < countSp [segOf ' ' 1, segOf 'a' 3])
    ∧ ([segOf ' ' 1, segOf 'a' 3].any (fun s => decide (s.char ≠ ' ')) = true)
    ∧ (7 : ℚ) + (segOf 'a' 3).width = 10 := by
  have hsp : 0 < countSp [segOf ' ' 1, segOf 'a' 3] := by
    norm_num [countSp, List.countP_cons, segOf, sampleStyle, char_a_ne_sp]
  have hns : [segOf ' ' 1, segOf 'a' 3].any (fun s => decide (s.char ≠ ' ')) = true := by
    norm_num [segOf, sampleStyle, char_a_ne_sp]
  have heval : (placeLine { segments := [segOf ' ' 1, segOf 'a' 3],
                            metricsWidth := sumW [segOf ' ' 1, segOf 'a' 3], maxHeight := 10,
                            spaces := countSp [segOf ' ' 1, segOf 'a' 3],
                            effectiveAlignment := Align.justify }
        10).getLast? = some (segOf 'a' 3, 7) := by
    norm_num [placeLine, xsFrom, advanceOf, sumW, countSp, List.countP_cons, segOf,
      sampleStyle, char_a_ne_sp]
  have h := justify_sums_amended [segOf ' ' 1, segOf 'a' 3] 10 10 (by simp) hsp hns
    (segOf 'a' 3) 7 heval
  exact ⟨hsp, hns, h.2 char_a_ne_sp⟩

/-- C4 counterexample.  The justified line `"a "` (spaces = 1, one
non-space) at target width 10: `extraSpacePerGap = 6`, the segments are
drawn at `x = 0` and `x = 3`, so the *last segment's* right edge is
`3 + 1 = 4 ≠ 10` — the claimed "last segment's right edge equals
targetWidth" fails when the line ends in a space (only the final pen
position, after the trailing gap, reaches 10). -/
theorem justify_edge_counterexample :
    placeLine { segments := [segOf 'a' 3, segOf ' ' 1], metricsWidth := 4, maxHeight := 10,
                spaces := 1, effectiveAlignment := Align.justify } 10
      = [(segOf 'a' 3, 0), (segOf ' ' 1, 3)]
    ∧ ((3 : ℚ) + (segOf ' ' 1).width ≠ 10) := by
  constructor
  · norm_num [placeLine, xsFrom, advanceOf, segOf, sampleStyle, char_a_ne_sp]
  · norm_num [segOf]

/-! ### C2: effective alignment of lines -/

/-- C2 corrected.  How `wrapStyledSegments` really treats alignment: the
accumulator starts at the document default; each incoming segment's style
alignment is adopted *before* newline/overflow handling (and only if the
line has not diverged from the default), so the line finalized by a
newline or by an overflow break carries the possibly-just-updated
alignment — taken from a segment that does *not* belong to it; at a
word-boundary break the new line's alignment is re-derived from the first
moved segment's style alignment if present, else the document default
(never inherited from the finalized line, and not from the triggering
segment); after a force break the fresh line starts at the default; a
non-breaking segment leaves the finalized lines untouched. -/
theorem wrap_alignment_amended (tw lh : ℚ) (ta : Align) (st : WrapState) (seg : LineSegment) :
    ((initWrapState ta).currentLineEffectiveAlignment = ta)
    ∧ (seg.char = '\n' →
        (wrapStep tw lh ta st seg).currentLineEffectiveAlignment = ta
        ∧ (st.currentLineSegments ≠ [] →
            (wrapStep tw lh ta st seg).lines
              = st.lines ++ [{ segments := st.currentLineSegments,
                               metricsWidth := st.currentLineMetricsWidth,
                               maxHeight := st.currentLineMaxHeight,
                               spaces := st.currentLineSpaces,
                               effectiveAlignment :=
                                 (alignUpdate ta st seg).currentLineEffectiveAlignment }]))
    ∧ (∀ k, seg.char ≠ '\n' →
        tw < st.currentLineMetricsWidth + seg.width → st.currentLineSegments ≠ [] →
        lastSpaceIdx st.currentLineSegments = some k →
        (wrapStep tw lh ta st seg).currentLineEffectiveAlignment
          = (match (st.currentLineSegments.drop (k + 1)).head? with
             | some m =>
               match m.style.textAlign with
               | some a => a
               | none => ta
             | none => ta)
        ∧ (wrapStep tw lh ta st seg).lines
          = st.lines ++ [{ segments := st.currentLineSegments.take (k + 1),
                           metricsWidth := sumW (st.currentLineSegments.take (k + 1)),
                           maxHeight := maxHeightW lh (st.currentLineSegments.take (k + 1)),
                           spaces := countSp (st.currentLineSegments.take (k + 1)),
                           effectiveAlignment :=
                             (alignUpdate ta st seg).currentLineEffectiveAlignment }])
    ∧ (seg.char ≠ '\n' →
        tw < st.currentLineMetricsWidth + seg.width → st.currentLineSegments ≠ [] →
        lastSpaceIdx st.currentLineSegments = none →
        (wrapStep tw lh ta st seg).currentLineEffectiveAlignment = ta
        ∧ (wrapStep tw lh ta st seg).lines
          = st.lines ++ [{ segments := st.currentLineSegments,
                           metricsWidth := st.currentLineMetricsWidth,
                           maxHeight := st.currentLineMaxHeight,
                           spaces := st.currentLineSpaces,
                           effectiveAlignment :=
                             (alignUpdate ta st seg).currentLineEffectiveAlignment }])
    ∧ (seg.char ≠ '\n' →
        (st.currentLineMetricsWidth + seg.width ≤ tw ∨ st.currentLineSegments = []) →
        (wrapStep tw lh ta st seg).currentLineEffectiveAlignment
          = (alignUpdate ta st seg).currentLineEffectiveAlignment
        ∧ (wrapStep tw lh ta st seg).lines = st.lines) := by
  refine ⟨rfl, ?_, ?_, ?_, ?_⟩
  · intro hnl
    unfold wrapStep
    rw [if_pos hnl]
    refine ⟨rfl, ?_⟩
    intro hne
    have hlen : (alignUpdate ta st seg).currentLineSegments.length > 0 := by
      rw [alignUpdate_segments]
      exact List.length_pos.mpr hne
    unfold processLine
    simp only [hlen, if_pos]
    simp [alignUpdate_segments, alignUpdate_width, alignUpdate_maxHeight, alignUpdate_spaces]
  · intro k hnl hfire hne hls
    unfold wrapStep
    rw [if_neg hnl]
    have hfire' : tw < (alignUpdate ta st seg).currentLineMetricsWidth + seg.width
        ∧ 0 < (alignUpdate ta st seg).currentLineSegments.length := by
      rw [alignUpdate_width, alignUpdate_segments]
      exact ⟨hfire, List.length_pos.mpr hne⟩
    rw [if_pos hfire']
    have hls' : lastSpaceIdx (alignUpdate ta st seg).currentLineSegments = some k := by
      rw [alignUpdate_segments]
      exact hls
    have e : breakCurrent lh ta (alignUpdate ta st seg) =
        { processLine ta
            { alignUpdate ta st seg with
              currentLineSegments := (alignUpdate ta st seg).currentLineSegments.take (k + 1)
              currentLineMetricsWidth := sumW ((alignUpdate ta st seg).currentLineSegments.take (k + 1))
              currentLineMaxHeight := maxHeightW lh ((alignUpdate ta st seg).currentLineSegments.take (k + 1))
              currentLineSpaces := countSp ((alignUpdate ta st seg).currentLineSegments.take (k + 1)) } with
          currentLineSegments := (alignUpdate ta st seg).currentLineSegments.drop (k + 1)
          currentLineMetricsWidth := sumW ((alignUpdate ta st seg).currentLineSegments.drop (k + 1))
          currentLineMaxHeight := maxHeightW lh ((alignUpdate ta st seg).currentLineSegments.drop (k + 1))
          currentLineSpaces := countSp ((alignUpdate ta st seg).currentLineSegments.drop (k + 1))
          currentLineEffectiveAlignment :=
            match ((alignUpdate ta st seg).currentLineSegments.drop (k + 1)).head? with
            | some m =>
              match m.style.textAlign with
              | some a => a
              | none => ta
            | none => ta } := by
      unfold breakCurrent
      rw [hls']
    constructor
    · rw [show (appendSeg lh (breakCurrent lh ta (alignUpdate ta st seg)) seg).currentLineEffectiveAlignment
            = (breakCurrent lh ta (alignUpdate ta st seg)).currentLineEffectiveAlignment from rfl,
          e, alignUpdate_segments]
    · rw [show (appendSeg lh (breakCurrent lh ta (alignUpdate ta st seg)) seg).lines
            = (breakCurrent lh ta (alignUpdate ta st seg)).lines from rfl,
          e]
      have hkept : ((alignUpdate ta st seg).currentLineSegments.take (k + 1)).length > 0 := by
        rw [alignUpdate_segments]
        obtain ⟨hk1, hk2⟩ := lastSpaceIdx_some_spec st.currentLineSegments k hls
        rw [List.length_take]
        have : 0 < st.currentLineSegments.length := List.length_pos.mpr hne
        omega
      unfold processLine
      simp only [hkept, if_pos]
      simp [alignUpdate_segments]
  · intro hnl hfire hne hls
    unfold wrapStep
    rw [if_neg hnl]
    have hfire' : tw < (alignUpdate ta st seg).currentLineMetricsWidth + seg.width
        ∧ 0 < (alignUpdate ta st seg).currentLineSegments.length := by
      rw [alignUpdate_width, alignUpdate_segments]
      exact ⟨hfire, List.length_pos.mpr hne⟩
    rw [if_pos hfire']
    have hls' : lastSpaceIdx (alignUpdate ta st seg).currentLineSegments = none := by
      rw [alignUpdate_segments]
      exact hls
    have e : breakCurrent lh ta (alignUpdate ta st seg)
        = processLine ta (alignUpdate ta st seg) := by
      unfold breakCurrent
      rw [hls']
    constructor
    · rw [show (appendSeg lh (breakCurrent lh ta (alignUpdate ta st seg)) seg).currentLineEffectiveAlignment
            = (breakCurrent lh ta (alignUpdate ta st seg)).currentLineEffectiveAlignment from rfl,
          e]
      rfl
    · rw [show (appendSeg lh (breakCurrent lh ta (alignUpdate ta st seg)) seg).lines
            = (breakCurrent lh ta (alignUpdate ta st seg)).lines from rfl,
          e]
      have hlen : (alignUpdate ta st seg).currentLineSegments.length > 0 := by
        rw [alignUpdate_segments]
        exact List.length_pos.mpr hne
      unfold processLine
      simp only [hlen, if_pos]
      simp [alignUpdate_segments, alignUpdate_width, alignUpdate_maxHeight, alignUpdate_spaces]
  · intro hnl hok
    unfold wrapStep
    rw [if_neg hnl]
    have hnofire : ¬ (tw < (alignUpdate ta st seg).currentLineMetricsWidth + seg.width
        ∧ 0 < (alignUpdate ta st seg).currentLineSegments.length) := by
      rw [alignUpdate_width, alignUpdate_segments]
      rcases hok with hok | hok
      · intro hcon
        have := hcon.1
        linarith
      · intro hcon
        rw [hok] at hcon
        simp at hcon
    rw [if_neg hnofire]
    refine ⟨rfl, ?_⟩
    show (appendSeg lh (alignUpdate ta st seg) seg).lines = st.lines
    rw [show (appendSeg lh (alignUpdate ta st seg) seg).lines
          = (alignUpdate ta st seg).lines from rfl, alignUpdate_lines]

/-- Witness for C2 (amended), exercising the word-boundary-break clause on
a concrete state: current line `" a"` (width 10) receives `b` (width 1);
the kept part is the space, the moved `a` carries no style alignment, so
the new line's alignment falls back to the document default. -/
theorem wrap_alignment_amended_witness :
    (wrapStep 10 1 Align.left
        { lines := [], currentLineSegments := [segOf ' ' 1, segOf 'a' 9],
          currentLineMetricsWidth := 10, currentLineMaxHeight := 10,
          currentLineSpaces := 1, currentLineEffectiveAlignment := Align.left }
        (segOf 'b' 1)).currentLineEffectiveAlignment = Align.left
    ∧ (wrapStep 10 1 Align.left
        { lines := [], currentLineSegments := [segOf ' ' 1, segOf 'a' 9],
          currentLineMetricsWidth := 10, currentLineMaxHeight := 10,
          currentLineSpaces := 1, currentLineEffectiveAlignment := Align.left }
        (segOf 'b' 1)).lines
      = [{ segments := [segOf ' ' 1], metricsWidth := sumW [segOf ' ' 1],
           maxHeight := maxHeightW 1 [segOf ' ' 1], spaces := countSp [segOf ' ' 1],
           effectiveAlignment := Align.left }] := by
  have h := (wrap_alignment_amended 10 1 Align.left
      { lines := [], currentLineSegments := [segOf ' ' 1, segOf 'a' 9],
        currentLineMetricsWidth := 10, currentLineMaxHeight := 10,
        currentLineSpaces := 1, currentLineEffectiveAlignment := Align.left }
      (segOf 'b' 1)).2.2.1 0
    char_b_ne_nl
    (by norm_num [segOf, sampleStyle])
    (by simp)
    (by norm_num [lastSpaceIdx, segOf, sampleStyle, char_a_ne_sp])
  obtain ⟨h1, h2⟩ := h
  constructor
  · rw [h1]
    norm_num [segOf, sampleStyle]
  · rw [h2]
    norm_num [alignUpdate, segOf, sampleStyle]

/-- C2 counterexample.  Global alignment left; segment `a` (no style
alignment, width 6) then segment `b` (style alignment center, width 6),
target width 10.  `b`'s alignment is adopted by the accumulating line
*before* the overflow check, then the force break finalizes line 1 = `[a]`
with alignment center — though no segment of that line carries center —
and `b`'s own line 2 keeps the default left.  This refutes "adopts a
per-style alignment only from a style carried by a segment belonging to
that line". -/
theorem wrap_alignment_counterexample :
    wrapStyledSegments [segOf 'a' 6, segCenter 'b' 6] 10 1 Align.left
      = [{ segments := [segOf 'a' 6], metricsWidth := 6, maxHeight := 10, spaces := 0,
           effectiveAlignment := Align.center },
         { segments := [segCenter 'b' 6], metricsWidth := 6, maxHeight := 10, spaces := 0,
           effectiveAlignment := Align.left }]
    ∧ (segOf 'a' 6).style.textAlign = none
    ∧ (segCenter 'b' 6).style.textAlign = some Align.center
    ∧ Align.center ≠ Align.left := by
  refine ⟨?_, rfl, rfl, by decide⟩
  norm_num [wrapStyledSegments, wrapStep, alignUpdate, breakCurrent, appendSeg, processLine,
    initWrapState, segOf, segCenter, sampleStyle, lastSpaceIdx, sumW, maxHeightW, countSp,
    char_a_ne_nl, char_a_ne_sp, char_b_ne_nl, char_b_ne_sp]

end TextImage
